import Mathlib

/-!
Verification development for the EAG repository: an agent orchestration loop
(assignment 4, MCP servers and clients) together with two browser-extension
content scripts (assignment 1: voice form navigation; assignment 2: news page
content extraction).

Strings of the JavaScript / Python sources are modelled as `List Char`; the
string-level operations of the sources (trim, whitespace collapsing, regex
character filtering, splitting on a separator) are embedded as executable
functions on `List Char`.

The concrete client scripts of assignment 4 (`talk2mcp-2.py`,
`talk2mcp_multiple.py`) are not part of the source tree; only the README
describing them, with the `create_system_prompt`, `servers` and
`find_tool_server` snippets, is.  The missing parts (response parser, tool
registry registration, iteration controller) are modelled from the spec, as
marked in their doc comments.
-/

namespace EAG

/-- Whitespace characters as recognised by the JavaScript regex class
backslash-s and by `String.prototype.trim` / Python `str.strip`, restricted to
the ASCII range (space, tab, line feed, carriage return, vertical tab, form
feed); the sources only ever handle ASCII whitespace. -/
def isWs (c : Char) : Bool :=
  c = ' ' || c = '\t' || c = '\n' || c = '\r' || c = '\x0b' || c = '\x0c'

/-- Drop leading whitespace. -/
def trimL (s : List Char) : List Char := s.dropWhile isWs

/-- Drop trailing whitespace. -/
def trimR (s : List Char) : List Char := (s.reverse.dropWhile isWs).reverse

/-- JavaScript `String.prototype.trim` / Python `str.strip`. -/
def trim (s : List Char) : List Char := trimR (trimL s)

/-- Test whether `p` occurs at the start of `s` (character-wise). -/
def hasPre : List Char → List Char → Bool
  | _, [] => true
  | [], _ :: _ => false
  | c :: cs, d :: ds => c = d && hasPre cs ds

/-- Test whether `t` occurs contiguously somewhere inside `s`. -/
def containsSub : List Char → List Char → Bool
  | [], t => t.isEmpty
  | s@(_ :: cs), t => hasPre s t || containsSub cs t

/- ------------------------------------------------------------------
Assignment 1, `content.js`: `FormNavigator`.

Only the index-movement state is relevant to the verified properties: the
`recognition` / `isListening` speech-recognition state and the DOM highlight
side effects of `moveToNextInput` / `moveToPreviousInput` do not touch
`currentInputIndex` or `formInputs`.  The DOM input elements are abstracted
to an arbitrary type `α`.  `currentInputIndex` is a JavaScript number that
starts at `-1`, hence `Int`; the JavaScript `%` operator on integers is
truncated remainder, `Int.tmod`.
------------------------------------------------------------------ -/

structure FormNavigator (α : Type) where
  currentInputIndex : Int
  formInputs : List α

/-- Embedding of `FormNavigator.moveToNextInput` (src/assignment1/content.js,
lines 107-112): `this.currentInputIndex = (this.currentInputIndex + 1) %
this.formInputs.length`. -/
def moveToNextInput {α : Type} (nav : FormNavigator α) : FormNavigator α :=
  { nav with currentInputIndex :=
      Int.tmod (nav.currentInputIndex + 1) (nav.formInputs.length : Int) }

/-- Embedding of `FormNavigator.moveToPreviousInput` (src/assignment1/content.js,
lines 114-119): `this.currentInputIndex = (this.currentInputIndex - 1 +
this.formInputs.length) % this.formInputs.length`. -/
def moveToPreviousInput {α : Type} (nav : FormNavigator α) : FormNavigator α :=
  { nav with currentInputIndex := Int.tmod (nav.currentInputIndex - 1 + (nav.formInputs.length : Int)) (nav.formInputs.length : Int) }

/- ------------------------------------------------------------------
Assignment 2, `content.js`: `cleanContent`.

`cleanContent` is `text.trim().replace(re1, sp).replace(re2, empty)
.substring(0, 500)` where `re1` is the global regex matching one-or-more
whitespace (replaced by a single space) and `re2` is the global regex
matching any character outside word characters, whitespace and `. , ! ? -`
(removed).  A global one-or-more-whitespace replacement replaces every
maximal whitespace run by one space, embedded as `collapseWs`; the character
removal is a filter; `substring(0, 500)` is `take 500`.
------------------------------------------------------------------ -/

/-- JavaScript regex word characters: `[A-Za-z0-9_]`. -/
def isWordChar (c : Char) : Bool :=
  ('a' ≤ c && c ≤ 'z') || ('A' ≤ c && c ≤ 'Z') || ('0' ≤ c && c ≤ '9') || c = '_'

/-- Replace every maximal run of whitespace by a single space; the flag
records whether the previous character was part of a whitespace run. -/
def collapseWsAux : Bool → List Char → List Char
  | _, [] => []
  | prevWs, c :: rest =>
    if isWs c then
      if prevWs then collapseWsAux true rest
      else ' ' :: collapseWsAux true rest
    else c :: collapseWsAux false rest

/-- Global replacement of one-or-more whitespace by a single space. -/
def collapseWs (s : List Char) : List Char := collapseWsAux false s

/-- Characters kept by the second replacement of `cleanContent`: word
characters, whitespace, and `. , ! ? -`. -/
def keepChar (c : Char) : Bool :=
  isWordChar c || isWs c || c = '.' || c = ',' || c = '!' || c = '?' || c = '-'

/-- Embedding of `cleanContent` (src/assignment2/content.js, lines 95-101). -/
def cleanContent (text : List Char) : List Char :=
  ((collapseWs (trim text)).filter keepChar).take 500

/-- Characters the claim C10 allows in the output of `cleanContent`: word
characters, the space, and `. , ! ? -`. -/
def allowedOut (c : Char) : Bool :=
  isWordChar c || c = ' ' || c = '.' || c = ',' || c = '!' || c = '?' || c = '-'

/- ------------------------------------------------------------------
Assignment 4: system prompt (src/unnamed/part_000, lines 42-54).

`create_system_prompt` is a Python f-string: a fixed header, the
`tools_description` argument interpolated verbatim, and a fixed footer that
states the two accepted response formats and the one-line requirement.
------------------------------------------------------------------ -/

/-- Text of the f-string before the `tools_description` interpolation. -/
def promptHeader : List Char :=
  ("You are a math agent solving problems in iterations. You have access to various mathematical tools.\nYou also have access to a paint application.\nYou can use the paint application to draw rectangles and add text.\n\nAvailable tools:\n").toList

/-- Text of the f-string after the `tools_description` interpolation. -/
def promptFooter : List Char :=
  ("\n\nYou must respond with EXACTLY ONE line in one of these formats (no additional text):\n1. For function calls:\n   FUNCTION_CALL: function_name|param1|param2|...\n2. For final answers:\n   FINAL_ANSWER: [number]").toList

/-- Embedding of `create_system_prompt` (src/unnamed/part_000, lines 42-54). -/
def create_system_prompt (tools_description : List Char) : List Char :=
  promptHeader ++ tools_description ++ promptFooter

/- ------------------------------------------------------------------
Assignment 4: response parser (spec §4.3) and instruction data model (§3).
------------------------------------------------------------------ -/

/-- Model response instruction (spec §3): exactly one variant per model
turn. -/
inductive Instruction where
  | functionCall (name : List Char) (args : List (List Char))
  | finalAnswer (value : List Char)
  | error (message : List Char)
  | uncertain (message : List Char)
deriving DecidableEq

/-- Parse failure (spec §4.3, §7): the model output did not match the
grammar; the offending text is preserved. -/
structure MalformedResponseError where
  text : List Char
deriving DecidableEq

/-- Keyword head of a function-call grammar line. -/
def kwFunctionCall : List Char := ['F', 'U', 'N', 'C', 'T', 'I', 'O', 'N', '_', 'C', 'A', 'L', 'L', ':']

/-- Keyword head of a final-answer grammar line. -/
def kwFinalAnswer : List Char := ['F', 'I', 'N', 'A', 'L', '_', 'A', 'N', 'S', 'W', 'E', 'R', ':']

/-- Keyword head of an error grammar line. -/
def kwError : List Char := ['E', 'R', 'R', 'O', 'R', ':']

/-- Keyword head of an uncertain grammar line. -/
def kwUncertain : List Char := ['U', 'N', 'C', 'E', 'R', 'T', 'A', 'I', 'N', ':']

/-- Split on the bar separator, with no escaping (Python `str.split` on the
bar character). -/
def splitBar : List Char → List (List Char)
  | [] => [[]]
  | c :: rest =>
    if c = '|' then [] :: splitBar rest
    else
      match splitBar rest with
      | [] => [[c]]
      | t :: ts => (c :: t) :: ts

/-- Modelled from the spec: the Response Parser `parse` of §4.3; the client
scripts that implement it are not part of the source tree.  Per §4.3:
leading/trailing whitespace is trimmed; text still spanning several lines
after trimming (an internal line feed) is malformed; the line must start with
one of the four keywords followed by a colon; whitespace after the colon is
skipped; a `FUNCTION_CALL` payload is split on the bar separator with no
escaping and needs a nonempty function name; the other three forms take the
remainder of the line verbatim. -/
def parse (raw : List Char) : Except MalformedResponseError Instruction :=
  let t := trim raw
  if t.contains '\n' then .error ⟨raw⟩
  else if hasPre t kwFunctionCall then
    match splitBar (trimL (t.drop kwFunctionCall.length)) with
    | [] => .error ⟨raw⟩
    | name :: args =>
      if name.isEmpty then .error ⟨raw⟩ else .ok (.functionCall name args)
  else if hasPre t kwFinalAnswer then
    .ok (.finalAnswer (trimL (t.drop kwFinalAnswer.length)))
  else if hasPre t kwError then
    .ok (.error (trimL (t.drop kwError.length)))
  else if hasPre t kwUncertain then
    .ok (.uncertain (trimL (t.drop kwUncertain.length)))
  else .error ⟨raw⟩

/-- Canonical text of a grammar line (spec §4.3): keyword, colon, one space,
then the payload; function-call arguments separated by bars. -/
def renderInstruction : Instruction → List Char
  | .functionCall name args =>
      kwFunctionCall ++ ' ' :: (name ++ (args.map (fun a => '|' :: a)).flatten)
  | .finalAnswer v => kwFinalAnswer ++ ' ' :: v
  | .error m => kwError ++ ' ' :: m
  | .uncertain m => kwUncertain ++ ' ' :: m

/-- Payload tokens of a well-formed function-call line: bar-free and
line-feed-free tokens, a nonempty name not starting with whitespace, and a
last token not ending in whitespace (otherwise trimming the line would alter
the token). -/
def wfFunctionCall (name : List Char) (args : List (List Char)) : Bool :=
  (match name with
   | [] => false
   | c :: _ => !isWs c) &&
  (name :: args).all (fun tok => !tok.contains '|' && !tok.contains '\n') &&
  (match (name :: args).getLast?.bind List.getLast? with
   | none => true
   | some c => !isWs c)

/-- Payload of a well-formed value/message line: nonempty, line-feed free,
and neither starting nor ending with whitespace. -/
def wfValue (v : List Char) : Bool :=
  !v.contains '\n' &&
  (match v with
   | [] => false
   | c :: _ => !isWs c) &&
  (match v.getLast? with
   | none => false
   | some c => !isWs c)

/-- Instructions whose canonical grammar line is stable under trimming: the
domain of claim C1. -/
def wfInstruction : Instruction → Bool
  | .functionCall name args => wfFunctionCall name args
  | .finalAnswer v => wfValue v
  | .error m => wfValue m
  | .uncertain m => wfValue m

/-- Declarative reading of the four grammar forms of §4.3, with the lenient
treatment of whitespace around the colon: after trimming, the text is a
single line starting with one of the four keyword-colon heads; a
function-call line further needs a nonempty name token. -/
def matchesGrammar (raw : List Char) : Prop :=
  (trim raw).contains '\n' = false ∧
  ((∃ rest, trim raw = kwFunctionCall ++ rest ∧ trimL rest ≠ [] ∧
      (trimL rest).head? ≠ some '|') ∨
   (∃ rest, trim raw = kwFinalAnswer ++ rest) ∨
   (∃ rest, trim raw = kwError ++ rest) ∨
   (∃ rest, trim raw = kwUncertain ++ rest))

/- ------------------------------------------------------------------
Assignment 4: server configuration and tool routing
(src/unnamed/part_000, lines 74-96), and the Tool Registry contract
(spec §4.1).
------------------------------------------------------------------ -/

/-- Tool descriptor as discovered from a provider (spec §3); the routing code
only ever reads `tool.name`. -/
structure ToolDesc where
  name : List Char
  description : List Char
deriving DecidableEq

/-- One entry of the module-level `servers` mapping of talk2mcp_multiple.py
(src/unnamed/part_000, lines 74-87): launch command and arguments plus the
discovered tools; the live `session` handle is an opaque transport object and
is not modelled.  Python dictionaries iterate in insertion order, so the
mapping is an ordered list of entries. -/
structure Server where
  name : List Char
  command : List Char
  args : List (List Char)
  tools : List ToolDesc
deriving DecidableEq

/-- Whether a server declares a tool with the given name (the inner loop of
`find_tool_server`). -/
def ownsTool (sd : Server) (func_name : List Char) : Bool :=
  sd.tools.any (fun tool => tool.name == func_name)

/-- Embedding of `find_tool_server` (src/unnamed/part_000, lines 90-96):
scan the servers in mapping order and return the name of the first one
declaring a tool with the requested name, else `none`. -/
def find_tool_server (servers : List Server) (func_name : List Char) :
    Option (List Char) :=
  match servers with
  | [] => none
  | sd :: rest =>
    if ownsTool sd func_name then some sd.name
    else find_tool_server rest func_name

/-- Registry construction failure (spec §4.1, §7): an incoming tool name
collides with one registered by a different provider. -/
structure DuplicateToolError where
  toolName : List Char
deriving DecidableEq

/-- Modelled from the spec: `register(providerId, tools)` of the Tool
Registry (§4.1); the registry-construction code of the client scripts is not
part of the source tree.  Registration fails with `DuplicateToolError` when
any incoming tool name is already declared by a different registered
provider, and otherwise appends the provider with its tools, preserving
registration order. -/
def register (reg : List Server) (providerId : List Char)
    (command : List Char) (args : List (List Char)) (tools : List ToolDesc) :
    Except DuplicateToolError (List Server) :=
  match tools.find? (fun t =>
      reg.any (fun sd => !(sd.name == providerId) && ownsTool sd t.name)) with
  | some t => .error ⟨t.name⟩
  | none => .ok (reg ++ [⟨providerId, command, args, tools⟩])

/-- Tool names are unique across the union of all providers: two different
registry entries never declare the same tool name (spec §3 invariant). -/
def crossUnique (reg : List Server) : Prop :=
  reg.Pairwise (fun a b => ∀ t1 ∈ a.tools, ∀ t2 ∈ b.tools, t1.name ≠ t2.name)

/-- The `math` provider of the routing scenario of spec §8: tools `add` and
`subtract`. -/
def demoMath : Server :=
  ⟨"math".toList, "python".toList, ["assignment4/server.py".toList],
    [⟨"add".toList, "Add two numbers".toList⟩,
     ⟨"subtract".toList, "Subtract two numbers".toList⟩]⟩

/-- The `mail` provider of the routing scenario of spec §8: tool
`send_email`. -/
def demoMail : Server :=
  ⟨"mail".toList, "python".toList, ["assignment4/gmail_server.py".toList],
    [⟨"send_email".toList, "Send an email".toList⟩]⟩

/-- The two-provider registry of the routing scenario of spec §8. -/
def demoServers : List Server := [demoMath, demoMail]

/- ------------------------------------------------------------------
Assignment 4: the Iteration Controller state machine (spec §4.4), modelled
from the spec; the client scripts implementing the loop are not part of the
source tree.
------------------------------------------------------------------ -/

/-- Modelled from the spec: `IterationRecord` (§3): index, the dispatched
instruction, the optional tool result (a provider result or a tool-side
error message), and the provider that served it. -/
structure IterationRecord where
  index : Nat
  instruction : Instruction
  toolResult : Option (Except (List Char) (List Char))
  providerId : Option (List Char)

/-- Cause of a failing terminal state (§4.4, §7), restricted to the causes
the modelled loop can produce (model timeouts are real-time behaviour and
are outside the embedding). -/
inductive ErrorCause where
  | malformedResponse
  | errorInstruction (message : List Char)
deriving DecidableEq

/-- Terminal outcome of a run (§4.4); a failure carries the retry counter so
that the number of retries is visible in the final error (§7). -/
inductive Terminal where
  | success (value : List Char)
  | failure (cause : ErrorCause) (retries : Nat)
  | budgetExhausted
deriving DecidableEq

/-- Retry and iteration budgets of a run (§4.4, §7). -/
structure RunConfig where
  retryLimit : Nat
  maxIterations : Nat
deriving DecidableEq

/-- Modelled from the spec: `RunState` (§3) with the explicit retry counter
of §9 and counters of model and tool calls; the malformed texts fed back as
prompt context (§4.4) are kept beside the indexed history. -/
structure RunState where
  history : List IterationRecord
  malformedContext : List (List Char)
  iterationCount : Nat
  retryCount : Nat
  modelCalls : Nat
  toolCalls : Nat

/-- Initial state: empty history, all counters zero (§4.4). -/
def initState : RunState := ⟨[], [], 0, 0, 0, 0⟩

/-- Result of one pass through the controller: continue with a new state, or
stop with a terminal outcome and the final state. -/
inductive StepResult where
  | next (s : RunState)
  | done (t : Terminal) (s : RunState)

/-- Provider invocation primitive (spec §4.2): provider id, tool name and
ordered raw arguments, returning a result or a tool-side error. -/
abbrev Invoke := List Char → List Char → List (List Char) → Except (List Char) (List Char)

/-- Modelled from the spec: dispatching one parsed instruction (§4.4).  A
final answer terminates with success immediately and verbatim; an error
instruction terminates with failure; an uncertain instruction is recorded
verbatim and the loop continues; a function call is routed with
`find_tool_server`: an unknown tool is recorded as a tool-error record and
fed back, a resolved tool invokes exactly the owning provider's session and
records its result.  Every appended record takes the next history index. -/
def dispatch (servers : List Server) (invoke : Invoke) (s : RunState)
    (inst : Instruction) : StepResult :=
  match inst with
  | .finalAnswer v =>
      .done (.success v) { s with iterationCount := s.iterationCount + 1 }
  | .error m =>
      .done (.failure (.errorInstruction m) s.retryCount)
        { s with iterationCount := s.iterationCount + 1 }
  | .uncertain m =>
      .next { s with
        history := s.history ++ [⟨s.history.length, .uncertain m, none, none⟩],
        iterationCount := s.iterationCount + 1,
        retryCount := 0 }
  | .functionCall fn args =>
      match find_tool_server servers fn with
      | none =>
          .next { s with
            history := s.history ++ [⟨s.history.length, .functionCall fn args, some (.error ("NotFoundError".toList)), none⟩],
            iterationCount := s.iterationCount + 1,
            retryCount := 0 }
      | some srv =>
          .next { s with
            history := s.history ++ [⟨s.history.length, .functionCall fn args, some (invoke srv fn args), some srv⟩],
            iterationCount := s.iterationCount + 1,
            retryCount := 0,
            toolCalls := s.toolCalls + 1 }

/-- Modelled from the spec: one pass of the Iteration Controller (§4.4).
When the iteration budget is exhausted the run stops; otherwise the scripted
model is called (the argument to `model` counting the calls made so far) and
the response parsed.  A malformed response is retried with an incremented
retry counter and the malformed text kept as context, until the retry limit
is exceeded, which fails the run with the malformed-response cause; a parsed
instruction is dispatched. -/
def stepOnce (cfg : RunConfig) (model : Nat → List Char)
    (servers : List Server) (invoke : Invoke) (s : RunState) : StepResult :=
  if cfg.maxIterations ≤ s.iterationCount then .done .budgetExhausted s
  else
    match parse (model s.modelCalls) with
    | .error _ =>
      if cfg.retryLimit ≤ s.retryCount then
        .done (.failure .malformedResponse s.retryCount)
          { s with modelCalls := s.modelCalls + 1 }
      else
        .next { s with
          modelCalls := s.modelCalls + 1,
          retryCount := s.retryCount + 1,
          malformedContext := s.malformedContext ++ [model s.modelCalls] }
    | .ok inst => dispatch servers invoke { s with modelCalls := s.modelCalls + 1 } inst

/-- Termination measure of the loop: lexicographic on remaining iterations,
then remaining retries, flattened into one natural number. -/
def stepMeasure (cfg : RunConfig) (s : RunState) : Nat :=
  (cfg.maxIterations - s.iterationCount) * (cfg.retryLimit + 1) +
    (cfg.retryLimit - s.retryCount)

/-- Modelled from the spec: the full run (§4.4), iterating `stepOnce` from a
state until a terminal outcome; total by the decreasing `stepMeasure`. -/
def runFrom (cfg : RunConfig) (model : Nat → List Char)
    (servers : List Server) (invoke : Invoke) (s : RunState) :
    Terminal × RunState :=
  match h : stepOnce cfg model servers invoke s with
  | .done t s1 => (t, s1)
  | .next s1 => runFrom cfg model servers invoke s1
termination_by stepMeasure cfg s
decreasing_by
  unfold stepOnce at h
  split at h
  · exact StepResult.noConfusion h
  · rename_i hiter
    split at h
    · split at h
      · exact StepResult.noConfusion h
      · rename_i hretry
        cases h
        simp only [stepMeasure]
        exact Nat.add_lt_add_left (by omega) _
    · rename_i inst hinst
      have key : ∀ s2 : RunState,
          s2.iterationCount = s.iterationCount + 1 → s2.retryCount = 0 →
          stepMeasure cfg s2 < stepMeasure cfg s := by
        intro s2 h2i h2r
        simp only [stepMeasure, h2i, h2r, Nat.sub_zero]
        have hsub : cfg.maxIterations - s.iterationCount =
            (cfg.maxIterations - (s.iterationCount + 1)) + 1 := by omega
        rw [hsub, Nat.succ_mul]
        generalize (cfg.maxIterations - (s.iterationCount + 1)) * (cfg.retryLimit + 1) = A
        omega
      cases inst with
      | finalAnswer v => exact StepResult.noConfusion h
      | error m => exact StepResult.noConfusion h
      | uncertain m =>
        cases h
        exact key _ rfl rfl
      | functionCall fn args =>
        simp only [dispatch] at h
        cases hfind : find_tool_server servers fn <;> rw [hfind] at h <;> cases h
        · exact key _ rfl rfl
        · exact key _ rfl rfl

/-- Modelled from the spec: the states a run can be in, starting from the
initial state and following continuing controller passes (spec §4.4). -/
inductive Reachable (cfg : RunConfig) (model : Nat → List Char)
    (servers : List Server) (invoke : Invoke) : RunState → Prop where
  | init : Reachable cfg model servers invoke initState
  | step {s s1 : RunState} : Reachable cfg model servers invoke s →
      stepOnce cfg model servers invoke s = .next s1 →
      Reachable cfg model servers invoke s1

/- ------------------------------------------------------------------
Theorems.
------------------------------------------------------------------ -/

/-- Truncated remainder agrees with Euclidean remainder on nonnegative
operands. -/
theorem tmod_eq_emod_of_nonneg (a b : Int) (ha : 0 ≤ a) (hb : 0 ≤ b) :
    a.tmod b = a % b := by
  match a, b with
  | Int.ofNat m, Int.ofNat n => rfl
  | Int.negSucc m, _ => exact absurd ha (by simp)
  | Int.ofNat m, Int.negSucc n => exact absurd hb (by simp)

/-- One cycle of increment-then-wrap followed by decrement-then-wrap is the
identity on indices already in range. -/
theorem emod_wrap_next_prev (i n : Int) (h0 : 0 ≤ i) (h1 : i < n) :
    ((i + 1) % n - 1 + n) % n = i := by
  rcases lt_or_eq_of_le (Int.add_one_le_iff.mpr h1) with h2 | h2
  · have ha : (i + 1) % n = i + 1 := Int.emod_eq_of_lt (by omega) h2
    have h3 : i + 1 - 1 + n = i + n * 1 := by ring
    rw [ha, h3, Int.add_mul_emod_self_left]
    exact Int.emod_eq_of_lt h0 h1
  · rw [h2, Int.emod_self]
    have h3 : (0 : Int) - 1 + n = n - 1 := by ring
    have h5 : (n - 1) % n = n - 1 := Int.emod_eq_of_lt (by omega) (by omega)
    rw [h3, h5]
    omega

/-- One cycle of decrement-then-wrap followed by increment-then-wrap is the
identity on indices already in range. -/
theorem emod_wrap_prev_next (i n : Int) (h0 : 0 ≤ i) (h1 : i < n) :
    ((i - 1 + n) % n + 1) % n = i := by
  rcases eq_or_lt_of_le h0 with h2 | h2
  · rw [← h2]
    have h3 : (0 : Int) - 1 + n = n - 1 := by ring
    have h5 : (n - 1) % n = n - 1 := Int.emod_eq_of_lt (by omega) (by omega)
    have h4 : n - 1 + 1 = n := by ring
    rw [h3, h5, h4, Int.emod_self]
  · have h3 : i - 1 + n = i - 1 + n * 1 := by ring
    rw [h3, Int.add_mul_emod_self_left]
    have h5 : (i - 1) % n = i - 1 := Int.emod_eq_of_lt (by omega) (by omega)
    have h4 : i - 1 + 1 = i := by ring
    rw [h5, h4]
    exact Int.emod_eq_of_lt h0 h1

/-- Wrap-around arithmetic of the form navigator index, stated with the
truncated remainder used by the JavaScript modulo operator. -/
theorem tmod_wrap (i n : Int) (h0 : 0 ≤ i) (h1 : i < n) :
    Int.tmod (Int.tmod (i + 1) n - 1 + n) n = i ∧
    Int.tmod (Int.tmod (i - 1 + n) n + 1) n = i ∧
    (0 ≤ Int.tmod (i + 1) n ∧ Int.tmod (i + 1) n < n) ∧
    (0 ≤ Int.tmod (i - 1 + n) n ∧ Int.tmod (i - 1 + n) n < n) := by
  have hn : 0 < n := lt_of_le_of_lt h0 h1
  have hne : n ≠ 0 := ne_of_gt hn
  have e1 : Int.tmod (i + 1) n = (i + 1) % n :=
    tmod_eq_emod_of_nonneg _ _ (by omega) (by omega)
  have e2 : Int.tmod (i - 1 + n) n = (i - 1 + n) % n :=
    tmod_eq_emod_of_nonneg _ _ (by omega) (by omega)
  have g1 : 0 ≤ (i + 1) % n := Int.emod_nonneg _ hne
  have g2 : 0 ≤ (i - 1 + n) % n := Int.emod_nonneg _ hne
  have e3 : Int.tmod ((i + 1) % n - 1 + n) n = ((i + 1) % n - 1 + n) % n :=
    tmod_eq_emod_of_nonneg _ _ (by omega) (by omega)
  have e4 : Int.tmod ((i - 1 + n) % n + 1) n = ((i - 1 + n) % n + 1) % n :=
    tmod_eq_emod_of_nonneg _ _ (by omega) (by omega)
  rw [e1, e2, e3, e4]
  exact ⟨emod_wrap_next_prev i n h0 h1, emod_wrap_prev_next i n h0 h1,
    ⟨g1, Int.emod_lt_of_pos _ hn⟩, ⟨g2, Int.emod_lt_of_pos _ hn⟩⟩

/-- Claim C9: for a `FormNavigator` with a non-empty `formInputs` list and
`currentInputIndex` in range, `moveToNextInput` and `moveToPreviousInput` are
mutually inverse on `currentInputIndex`, and each single operation keeps
`currentInputIndex` within `0 .. formInputs.length - 1` by wrapping modulo
the list length. -/
theorem formNavigator_next_prev_inverse {α : Type} (nav : FormNavigator α)
    (hlo : 0 ≤ nav.currentInputIndex)
    (hhi : nav.currentInputIndex < (nav.formInputs.length : Int)) :
    (moveToPreviousInput (moveToNextInput nav)).currentInputIndex =
      nav.currentInputIndex ∧
    (moveToNextInput (moveToPreviousInput nav)).currentInputIndex =
      nav.currentInputIndex ∧
    (0 ≤ (moveToNextInput nav).currentInputIndex ∧
      (moveToNextInput nav).currentInputIndex < (nav.formInputs.length : Int)) ∧
    (0 ≤ (moveToPreviousInput nav).currentInputIndex ∧
      (moveToPreviousInput nav).currentInputIndex <
        (nav.formInputs.length : Int)) := by
  have h := tmod_wrap nav.currentInputIndex (nav.formInputs.length : Int) hlo hhi
  simpa [moveToNextInput, moveToPreviousInput] using h

/-- Concrete instance of claim C9: three inputs, index 1. -/
theorem formNavigator_next_prev_inverse_witness :
    (moveToPreviousInput (moveToNextInput
      (⟨1, [0, 1, 2]⟩ : FormNavigator Nat))).currentInputIndex = 1 := by
  exact (formNavigator_next_prev_inverse (⟨1, [0, 1, 2]⟩ : FormNavigator Nat)
    (by decide) (by decide)).1

/-- Every character produced by `collapseWsAux` is a non-whitespace character
of the input or the single space. -/
theorem mem_collapseWsAux (b : Bool) (s : List Char) (c : Char)
    (h : c ∈ collapseWsAux b s) : c = ' ' ∨ (c ∈ s ∧ isWs c = false) := by
  induction s generalizing b with
  | nil => simp [collapseWsAux] at h
  | cons d rest ih =>
    simp only [collapseWsAux] at h
    by_cases hd : isWs d
    · simp only [hd, if_true] at h
      by_cases hb : b
      · rcases ih true (by simpa [hb] using h) with h1 | ⟨h2, h3⟩
        · exact Or.inl h1
        · exact Or.inr ⟨List.mem_cons_of_mem d h2, h3⟩
      · simp only [hb, if_false] at h
        rcases List.mem_cons.mp h with h1 | h1
        · exact Or.inl h1
        · rcases ih true h1 with h2 | ⟨h2, h3⟩
          · exact Or.inl h2
          · exact Or.inr ⟨List.mem_cons_of_mem d h2, h3⟩
    · simp only [hd, if_false] at h
      rcases List.mem_cons.mp h with h1 | h1
      · subst h1
        exact Or.inr ⟨List.mem_cons_self c rest, by simpa using hd⟩
      · rcases ih false h1 with h2 | ⟨h2, h3⟩
        · exact Or.inl h2
        · exact Or.inr ⟨List.mem_cons_of_mem d h2, h3⟩

/-- Claim C10, corrected: `cleanContent` returns at most 500 characters, each
of which is a word character, a space, or one of `. , ! ? -`.  The claim as
stated additionally asserts that spaces occur singly; that part is refuted by
`cleanContent_not_single_spaces`, since character removal happens after
whitespace collapsing and can bring two spaces together. -/
theorem cleanContent_length_alphabet (text : List Char) :
    (cleanContent text).length ≤ 500 ∧
      ∀ c ∈ cleanContent text, allowedOut c = true := by
  constructor
  · simpa [cleanContent] using
      List.length_take_le 500 ((collapseWs (trim text)).filter keepChar)
  · intro c hc
    have hc1 : c ∈ (collapseWs (trim text)).filter keepChar :=
      List.take_subset 500 _ hc
    have hc2 : c ∈ collapseWs (trim text) := (List.mem_filter.mp hc1).1
    have hkeep : keepChar c = true := (List.mem_filter.mp hc1).2
    rcases mem_collapseWsAux false (trim text) c hc2 with hsp | ⟨_, hnws⟩
    · subst hsp
      decide
    · simp only [keepChar, Bool.or_eq_true, hnws] at hkeep
      simp only [allowedOut, Bool.or_eq_true]
      tauto

/-- Concrete instance of claim C10 (corrected form). -/
theorem cleanContent_length_alphabet_witness :
    (cleanContent ("a @ b".toList)).length ≤ 500 ∧
      ∀ c ∈ cleanContent ("a @ b".toList), allowedOut c = true :=
  cleanContent_length_alphabet ("a @ b".toList)

/-- Counterexample to claim C10 as stated: on input `"a @ b"` the output of
`cleanContent` is `"a  b"`, which contains two consecutive spaces, because
the `@` standing between the two spaces is removed only after whitespace
collapsing. -/
theorem cleanContent_not_single_spaces :
    cleanContent ("a @ b".toList) = ("a  b".toList) ∧
      ¬ containsSub (cleanContent ("a @ b".toList)) [' ', ' '] = false := by
  constructor
  · decide
  · decide


/-- A list starts with itself, whatever follows. -/
theorem hasPre_append_self (t rest : List Char) : hasPre (t ++ rest) t = true := by
  induction t with
  | nil => simp [hasPre]
  | cons c cs ih => simp [hasPre, ih]

/-- A list starting with `t` contains `t`. -/
theorem containsSub_of_hasPre (s t : List Char) (h : hasPre s t = true) :
    containsSub s t = true := by
  cases s with
  | nil =>
    cases t with
    | nil => rfl
    | cons d ds => simp [hasPre] at h
  | cons c cs => simp [containsSub, h]

/-- Containment is preserved by prepending text. -/
theorem containsSub_append_right (a b t : List Char)
    (h : containsSub b t = true) : containsSub (a ++ b) t = true := by
  induction a with
  | nil => simpa using h
  | cons c cs ih =>
    simp only [List.cons_append, containsSub, Bool.or_eq_true]
    exact Or.inr ih

set_option maxRecDepth 40000 in
/-- Claim C8, corrected: the system prompt contains the supplied tools
description verbatim, the two response formats of the source
(`FUNCTION_CALL` with bar-separated parameters and `FINAL_ANSWER`), and the
instruction that exactly one line must be returned.  The four-line grammar
of spec §4.3 is not present in full; see
`create_system_prompt_missing_grammar`. -/
theorem create_system_prompt_content (d : List Char) :
    containsSub (create_system_prompt d) d = true ∧
    containsSub (create_system_prompt d)
      ("FUNCTION_CALL: function_name|param1|param2|...".toList) = true ∧
    containsSub (create_system_prompt d)
      ("FINAL_ANSWER: [number]".toList) = true ∧
    containsSub (create_system_prompt d)
      ("You must respond with EXACTLY ONE line".toList) = true := by
  refine ⟨?_, ?_, ?_, ?_⟩
  · show containsSub (promptHeader ++ d ++ promptFooter) d = true
    rw [List.append_assoc]
    exact containsSub_append_right _ _ _
      (containsSub_of_hasPre _ _ (hasPre_append_self d promptFooter))
  · exact containsSub_append_right _ _ _ (by decide)
  · exact containsSub_append_right _ _ _ (by decide)
  · exact containsSub_append_right _ _ _ (by decide)

set_option maxRecDepth 100000 in
/-- Counterexample to claim C8 as stated: for a concrete tools description,
the prompt built by `create_system_prompt` contains neither an `UNCERTAIN`
nor an `ERROR` response format: the source prompt documents only the
`FUNCTION_CALL` and `FINAL_ANSWER` forms, not the four-line grammar of spec
§4.3. -/
theorem create_system_prompt_missing_grammar :
    containsSub (create_system_prompt ("add(a, b): Adds two numbers".toList))
      ("UNCERTAIN".toList) = false ∧
    containsSub (create_system_prompt ("add(a, b): Adds two numbers".toList))
      ("ERROR".toList) = false := by
  constructor
  · decide
  · decide


/-- A server does not own a tool name exactly when none of its tools carries
that name. -/
theorem ownsTool_eq_false (sd : Server) (n : List Char) :
    ownsTool sd n = false ↔ ∀ t ∈ sd.tools, t.name ≠ n := by
  simp [ownsTool]

/-- Claim C3: `register` fails with a `DuplicateToolError` whenever an
incoming tool name is already declared by a different registered provider;
with no such collision it succeeds and appends the provider, and for a fresh
provider id it preserves cross-provider uniqueness of tool names. -/
theorem register_duplicate_detection (reg : List Server) (pid command : List Char)
    (args : List (List Char)) (tools : List ToolDesc) :
    ((∃ t ∈ tools, ∃ sd ∈ reg, sd.name ≠ pid ∧ ownsTool sd t.name = true) →
      ∃ e, register reg pid command args tools = .error e) ∧
    ((∀ t ∈ tools, ∀ sd ∈ reg, sd.name ≠ pid → ownsTool sd t.name = false) →
      register reg pid command args tools =
        .ok (reg ++ [⟨pid, command, args, tools⟩]) ∧
      (crossUnique reg → (∀ sd ∈ reg, sd.name ≠ pid) →
        crossUnique (reg ++ [⟨pid, command, args, tools⟩]))) := by
  constructor
  · rintro ⟨t, ht, sd, hsd, hne, howns⟩
    have hp : (tools.find? (fun t =>
        reg.any (fun sd => !(sd.name == pid) && ownsTool sd t.name))).isSome := by
      rw [List.find?_isSome]
      refine ⟨t, ht, ?_⟩
      rw [List.any_eq_true]
      exact ⟨sd, hsd, by simp [hne, howns]⟩
    unfold register
    rcases Option.isSome_iff_exists.mp hp with ⟨t0, ht0⟩
    rw [ht0]
    exact ⟨⟨t0.name⟩, rfl⟩
  · intro hnone
    have hp : tools.find? (fun t =>
        reg.any (fun sd => !(sd.name == pid) && ownsTool sd t.name)) = none := by
      rw [List.find?_eq_none]
      intro t ht
      rw [Bool.not_eq_true, List.any_eq_false]
      intro sd hsd
      by_cases hne : sd.name = pid
      · simp [hne]
      · simp [hne, hnone t ht sd hsd hne]
    refine ⟨by unfold register; rw [hp], ?_⟩
    intro hU hfresh
    rw [crossUnique, List.pairwise_append]
    refine ⟨hU, by simp, ?_⟩
    intro a ha b hb
    simp only [List.mem_singleton] at hb
    subst hb
    intro t1 ht1 t2 ht2
    have h2 : ownsTool a t2.name = false := hnone t2 ht2 a ha (hfresh a ha)
    exact (ownsTool_eq_false a t2.name).mp h2 t1 ht1

/-- Concrete instance of claim C3: a second provider redeclaring `add` fails
registration, while the disjoint `math` / `mail` pair registers. -/
theorem register_duplicate_detection_witness :
    (∃ e, register [demoMath] ("mail2".toList) ("python".toList) []
      [⟨"add".toList, "Adds".toList⟩] = .error e) ∧
    register [demoMath] ("mail".toList) ("python".toList)
      ["assignment4/gmail_server.py".toList] demoMail.tools =
      .ok [demoMath, ⟨"mail".toList, "python".toList,
        ["assignment4/gmail_server.py".toList], demoMail.tools⟩] := by
  constructor
  · exact (register_duplicate_detection [demoMath] ("mail2".toList)
      ("python".toList) [] [⟨"add".toList, "Adds".toList⟩]).1
      ⟨⟨"add".toList, "Adds".toList⟩, by decide, demoMath, by decide, by decide⟩
  · exact ((register_duplicate_detection [demoMath] ("mail".toList)
      ("python".toList) ["assignment4/gmail_server.py".toList]
      demoMail.tools).2 (by decide)).1

/-- Claim C4: a tool name declared by exactly one registered provider
resolves, through `find_tool_server`, to that provider, and dispatching a
function call for that tool invokes only that provider's session: the
appended record carries that provider id and that provider's invocation
result. -/
theorem find_tool_server_routes (servers : List Server) (fn : List Char)
    (owner : Server) (hmem : owner ∈ servers)
    (howns : ownsTool owner fn = true)
    (huniq : ∀ sd ∈ servers, ownsTool sd fn = true → sd.name = owner.name) :
    find_tool_server servers fn = some owner.name ∧
    ∀ (invoke : Invoke) (s : RunState) (args : List (List Char)),
      dispatch servers invoke s (.functionCall fn args) = .next { s with
        history := s.history ++ [⟨s.history.length, .functionCall fn args, some (invoke owner.name fn args), some owner.name⟩],
        iterationCount := s.iterationCount + 1,
        retryCount := 0,
        toolCalls := s.toolCalls + 1 } := by
  have hfind : find_tool_server servers fn = some owner.name := by
    induction servers with
    | nil => cases hmem
    | cons sd rest ih =>
      by_cases hsd : ownsTool sd fn = true
      · have hname : sd.name = owner.name := huniq sd (List.mem_cons_self sd rest) hsd
        simp [find_tool_server, hsd, hname]
      · have hmem2 : owner ∈ rest := by
          rcases List.mem_cons.mp hmem with h1 | h1
          · subst h1
            exact absurd howns hsd
          · exact h1
        have huniq2 : ∀ sd2 ∈ rest, ownsTool sd2 fn = true → sd2.name = owner.name :=
          fun sd2 h2 => huniq sd2 (List.mem_cons_of_mem sd h2)
        simp [find_tool_server, hsd, ih hmem2 huniq2]
  refine ⟨hfind, ?_⟩
  intro invoke s args
  simp [dispatch, hfind]

/-- Concrete instance of claim C4 (the routing scenario of spec §8):
`send_email` resolves to the `mail` provider and the dispatched record
carries the `mail` provider id and its invocation result, not `math`. -/
theorem find_tool_server_routes_witness :
    find_tool_server demoServers ("send_email".toList) = some ("mail".toList) ∧
    (dispatch demoServers (fun _ _ _ => .ok ("sent".toList)) initState
        (.functionCall ("send_email".toList) ["a@b.com".toList, "hi".toList]) =
      .next { initState with
        history := [⟨0, .functionCall ("send_email".toList)
          ["a@b.com".toList, "hi".toList], some (.ok ("sent".toList)),
          some ("mail".toList)⟩],
        iterationCount := 1,
        retryCount := 0,
        toolCalls := 1 }) ∧
    some ("mail".toList) ≠ some ("math".toList) := by
  have h := find_tool_server_routes demoServers ("send_email".toList) demoMail
    (by decide) (by decide) (by decide)
  refine ⟨h.1, ?_, by decide⟩
  have h2 := h.2 (fun _ _ _ => .ok ("sent".toList)) initState
    ["a@b.com".toList, "hi".toList]
  simpa [initState, demoMail] using h2

/-- Dropping over an all-satisfying block continues into the remainder. -/
theorem dropWhile_append_all (p : Char → Bool) (a b : List Char)
    (h : ∀ c ∈ a, p c = true) :
    List.dropWhile p (a ++ b) = List.dropWhile p b := by
  induction a with
  | nil => rfl
  | cons c cs ih =>
    have hc : p c = true := h c (List.mem_cons_self c cs)
    simp only [List.cons_append, List.dropWhile_cons, hc, if_true]
    exact ih (fun d hd => h d (List.mem_cons_of_mem c hd))

/-- Leading whitespace is swallowed by `trimL`. -/
theorem trimL_ws_append (ws s : List Char) (h : ∀ c ∈ ws, isWs c = true) :
    trimL (ws ++ s) = trimL s :=
  dropWhile_append_all isWs ws s h

/-- Text whose head is not whitespace is fixed by `trimL`. -/
theorem trimL_no_ws (s : List Char)
    (h : ∀ c, s.head? = some c → isWs c = false) : trimL s = s := by
  cases s with
  | nil => rfl
  | cons c cs =>
    have hc : isWs c = false := h c rfl
    simp [trimL, List.dropWhile_cons, hc]

/-- Trailing whitespace is swallowed by `trimR`. -/
theorem trimR_append_ws (s ws : List Char) (h : ∀ c ∈ ws, isWs c = true) :
    trimR (s ++ ws) = trimR s := by
  simp only [trimR, List.reverse_append]
  rw [dropWhile_append_all isWs ws.reverse s.reverse
    (fun c hc => h c (List.mem_reverse.mp hc))]

/-- Text whose last character is not whitespace is fixed by `trimR`. -/
theorem trimR_no_ws (s : List Char)
    (h : ∀ c, s.getLast? = some c → isWs c = false) : trimR s = s := by
  have h2 : List.dropWhile isWs s.reverse = s.reverse := by
    have h3 : ∀ c, s.reverse.head? = some c → isWs c = false := by
      intro c hc
      rw [List.head?_reverse] at hc
      exact h c hc
    exact trimL_no_ws s.reverse h3
  simp only [trimR, h2]
  exact List.reverse_reverse s

/-- Trimming strips exactly the surrounding whitespace from a nonempty text
with non-whitespace endpoints. -/
theorem trim_sandwich (ws1 s ws2 : List Char) (hne : s ≠ [])
    (h1 : ∀ c ∈ ws1, isWs c = true) (h2 : ∀ c ∈ ws2, isWs c = true)
    (hh : ∀ c, s.head? = some c → isWs c = false)
    (hl : ∀ c, s.getLast? = some c → isWs c = false) :
    trim (ws1 ++ s ++ ws2) = s := by
  have e1 : ws1 ++ s ++ ws2 = ws1 ++ (s ++ ws2) := List.append_assoc ws1 s ws2
  have hh2 : ∀ c, (s ++ ws2).head? = some c → isWs c = false := by
    intro c hc
    rw [List.head?_append_of_ne_nil s hne] at hc
    exact hh c hc
  rw [trim, e1, trimL_ws_append ws1 (s ++ ws2) h1, trimL_no_ws (s ++ ws2) hh2,
    trimR_append_ws s ws2 h2]
  exact trimR_no_ws s hl

/-- Containment failure is non-membership. -/
theorem contains_false_iff (s : List Char) (c : Char) :
    s.contains c = false ↔ c ∉ s := by
  constructor
  · intro h hc
    have h2 : List.elem c s = true := List.elem_iff.mpr hc
    rw [show s.contains c = List.elem c s from rfl, h2] at h
    cases h
  · intro h
    cases he : s.contains c
    · rfl
    · exact absurd (List.elem_iff.mp he) h

/-- Unfolding a leading bar. -/
theorem splitBar_cons_bar (xs : List Char) : splitBar ('|' :: xs) = [] :: splitBar xs := rfl

/-- Unfolding a leading non-bar character. -/
theorem splitBar_cons_ne (c : Char) (hc : ¬ (c = '|')) (xs : List Char) :
    splitBar (c :: xs) =
      match splitBar xs with
      | [] => [[c]]
      | t :: ts => (c :: t) :: ts := by
  simp only [splitBar, if_neg hc]

/-- Splitting on bars undoes joining bar-free tokens with bars. -/
theorem splitBar_join (args : List (List Char)) (name : List Char)
    (hn : name.contains '|' = false)
    (ha : ∀ a ∈ args, a.contains '|' = false) :
    splitBar (name ++ (args.map (fun a => '|' :: a)).flatten) = name :: args := by
  induction args generalizing name with
  | nil =>
    simp only [List.map_nil, List.flatten_nil, List.append_nil]
    induction name with
    | nil => rfl
    | cons c cs ih =>
      rw [List.contains_cons, Bool.or_eq_false_iff] at hn
      have hc : ¬ (c = '|') := by
        intro hcc
        subst hcc
        simp at hn
      have hcs := ih hn.2
      rw [splitBar_cons_ne c hc, hcs]
  | cons a rest ih =>
    have ha2 : ∀ x ∈ rest, x.contains '|' = false :=
      fun x hx => ha x (List.mem_cons_of_mem a hx)
    have hahead : a.contains '|' = false := ha a (List.mem_cons_self a rest)
    induction name with
    | nil =>
      simp only [List.nil_append, List.map_cons, List.flatten_cons]
      rw [List.cons_append, splitBar_cons_bar, ih a hahead ha2]
    | cons c cs ihn =>
      rw [List.contains_cons, Bool.or_eq_false_iff] at hn
      have hc : ¬ (c = '|') := by
        intro hcc
        subst hcc
        simp at hn
      have hcs := ihn hn.2
      rw [List.cons_append, splitBar_cons_ne c hc, hcs]

/-- The last character of a bar-joined token list is the last character of
the last token, or a bar when the last token is empty. -/
theorem last_char_of_tokens (name : List Char) (args : List (List Char))
    (hname : name ≠ []) :
    ∃ c, (name ++ (args.map (fun a => '|' :: a)).flatten).getLast? = some c ∧
      ((name :: args).getLast?.bind List.getLast? = some c ∨ c = '|') := by
  induction args using List.reverseRecOn with
  | nil =>
    simp only [List.map_nil, List.flatten_nil, List.append_nil]
    cases hg : name.getLast? with
    | none => exact absurd (List.getLast?_eq_none_iff.mp hg) hname
    | some c => exact ⟨c, rfl, Or.inl (by simp [hg])⟩
  | append_singleton init a _ =>
    have hflat : (((init ++ [a]).map (fun x => '|' :: x)).flatten) =
        ((init.map (fun x => '|' :: x)).flatten) ++ ('|' :: a) := by
      simp [List.map_append, List.flatten_append]
    have hlast2 : (name :: (init ++ [a])).getLast? = some a := by
      rw [show name :: (init ++ [a]) = (name :: init) ++ [a] by simp]
      exact List.getLast?_concat _
    cases a with
    | nil =>
      refine ⟨'|', ?_, Or.inr rfl⟩
      rw [hflat, ← List.append_assoc, List.getLast?_append]
      simp
    | cons d ds =>
      have hds : (d :: ds) ≠ ([] : List Char) := by simp
      refine ⟨(d :: ds).getLast hds, ?_, Or.inl ?_⟩
      · rw [hflat, ← List.append_assoc, List.getLast?_append]
        rw [show ('|' :: d :: ds).getLast? = (d :: ds).getLast? from
          List.getLast?_cons_cons]
        rw [List.getLast?_eq_getLast (d :: ds) hds]
        rfl
      · rw [hlast2]
        simpa using (List.getLast?_eq_getLast (d :: ds) hds).symm

/-- A final-answer line never looks like a function call. -/
theorem faNotFc (x : List Char) :
    hasPre (kwFinalAnswer ++ x) kwFunctionCall = false := by
  simp [kwFinalAnswer, kwFunctionCall, hasPre]

/-- An error line never looks like a function call. -/
theorem errNotFc (x : List Char) :
    hasPre (kwError ++ x) kwFunctionCall = false := by
  simp [kwError, kwFunctionCall, hasPre]

/-- An error line never looks like a final answer. -/
theorem errNotFa (x : List Char) :
    hasPre (kwError ++ x) kwFinalAnswer = false := by
  simp [kwError, kwFinalAnswer, hasPre]

/-- An uncertain line never looks like a function call. -/
theorem uncNotFc (x : List Char) :
    hasPre (kwUncertain ++ x) kwFunctionCall = false := by
  simp [kwUncertain, kwFunctionCall, hasPre]

/-- An uncertain line never looks like a final answer. -/
theorem uncNotFa (x : List Char) :
    hasPre (kwUncertain ++ x) kwFinalAnswer = false := by
  simp [kwUncertain, kwFinalAnswer, hasPre]

/-- An uncertain line never looks like an error. -/
theorem uncNotErr (x : List Char) :
    hasPre (kwUncertain ++ x) kwError = false := by
  simp [kwUncertain, kwError, hasPre]

/-- Payload evaluation shared by the three value-carrying grammar lines:
trimming and parsing of `kw ++ ' ' :: v` recovers `v`. -/
theorem value_line_facts (kw : List Char) (v : List Char)
    (hkw : kw ≠ []) (hkwh : ∀ c, kw.head? = some c → isWs c = false)
    (hkwnl : '\n' ∉ kw)
    (hwf : wfValue v = true) (ws1 ws2 : List Char)
    (h1 : ∀ c ∈ ws1, isWs c = true) (h2 : ∀ c ∈ ws2, isWs c = true) :
    trim (ws1 ++ (kw ++ ' ' :: v) ++ ws2) = kw ++ ' ' :: v ∧
    (kw ++ ' ' :: v).contains '\n' = false ∧
    List.drop kw.length (kw ++ ' ' :: v) = ' ' :: v ∧
    trimL (' ' :: v) = v := by
  unfold wfValue at hwf
  rw [Bool.and_eq_true, Bool.and_eq_true] at hwf
  obtain ⟨⟨hvnl, hvh⟩, hvl⟩ := hwf
  have hvne : v ≠ [] := by
    intro hv
    rw [hv] at hvh
    cases hvh
  have hvh2 : ∀ c, v.head? = some c → isWs c = false := by
    intro c hc
    cases v with
    | nil => cases hc
    | cons d ds =>
      cases hc
      simpa using hvh
  have hvl2 : ∀ c, v.getLast? = some c → isWs c = false := by
    intro c hc
    rw [hc] at hvl
    simpa using hvl
  have hr : kw ++ ' ' :: v = (kw ++ [' ']) ++ v := by simp
  refine ⟨?_, ?_, List.drop_left kw (' ' :: v), ?_⟩
  · apply trim_sandwich ws1 (kw ++ ' ' :: v) ws2 (by simp [hkw]) h1 h2
    · intro c hc
      rw [List.head?_append_of_ne_nil kw hkw] at hc
      exact hkwh c hc
    · intro c hc
      rw [hr, List.getLast?_append] at hc
      cases hg : v.getLast? with
      | none => exact absurd (List.getLast?_eq_none_iff.mp hg) hvne
      | some d =>
        rw [hg] at hc
        cases hc
        exact hvl2 c hg
  · rw [contains_false_iff]
    intro hmem
    rcases List.mem_append.mp hmem with hm | hm
    · exact hkwnl hm
    · rcases List.mem_cons.mp hm with hm2 | hm2
      · cases hm2
      · exact (contains_false_iff v '\n').mp (by simpa using hvnl) hm2
  · rw [show (' ' :: v) = [' '] ++ v from rfl,
      trimL_ws_append [' '] v (by decide)]
    exact trimL_no_ws v hvh2

/-- Claim C1: every line of one of the four canonical grammar forms, with
well-formed payload tokens and surrounded by arbitrary whitespace, parses
totally to the matching instruction with its fields exactly as written. -/
theorem parse_total_on_grammar (i : Instruction) (hwf : wfInstruction i = true)
    (ws1 ws2 : List Char)
    (h1 : ∀ c ∈ ws1, isWs c = true) (h2 : ∀ c ∈ ws2, isWs c = true) :
    parse (ws1 ++ renderInstruction i ++ ws2) = .ok i := by
  cases i with
  | functionCall name args =>
    unfold wfInstruction wfFunctionCall at hwf
    rw [Bool.and_eq_true, Bool.and_eq_true] at hwf
    obtain ⟨⟨hhd, hall⟩, hlst⟩ := hwf
    have hname_ne : name ≠ [] := by
      intro hv
      rw [hv] at hhd
      cases hhd
    have hhd2 : ∀ c, name.head? = some c → isWs c = false := by
      intro c hc
      cases name with
      | nil => cases hc
      | cons d ds =>
        cases hc
        simpa using hhd
    have htok : ∀ tok ∈ name :: args,
        tok.contains '|' = false ∧ tok.contains '\n' = false := by
      intro tok htm
      have := List.all_eq_true.mp hall tok htm
      simp only [Bool.and_eq_true, Bool.not_eq_true'] at this
      exact this
    have hbarfree : ∀ a ∈ args, a.contains '|' = false :=
      fun a ha => (htok a (List.mem_cons_of_mem name ha)).1
    have hnamebar : name.contains '|' = false :=
      (htok name (List.mem_cons_self name args)).1
    obtain ⟨cl, hcl, hclws⟩ := last_char_of_tokens name args hname_ne
    have hclns : isWs cl = false := by
      rcases hclws with hc1 | hc1
      · rw [hc1] at hlst
        simpa using hlst
      · rw [hc1]
        decide
    simp only [renderInstruction]
    set bars := (args.map (fun a => '|' :: a)).flatten with hbars
    have hr : kwFunctionCall ++ ' ' :: (name ++ bars) =
        (kwFunctionCall ++ [' ']) ++ (name ++ bars) := by simp
    have htrim : trim (ws1 ++ (kwFunctionCall ++ ' ' :: (name ++ bars)) ++ ws2) =
        kwFunctionCall ++ ' ' :: (name ++ bars) := by
      apply trim_sandwich ws1 _ ws2 (by simp [kwFunctionCall]) h1 h2
      · intro c hc
        rw [List.head?_append_of_ne_nil kwFunctionCall (by simp [kwFunctionCall])] at hc
        rw [show kwFunctionCall.head? = some 'F' from rfl] at hc
        cases hc
        decide
      · intro c hc
        rw [hr, List.getLast?_append, hcl] at hc
        cases hc
        exact hclns
    have hnl : (kwFunctionCall ++ ' ' :: (name ++ bars)).contains '\n' = false := by
      rw [contains_false_iff]
      intro hmem
      rcases List.mem_append.mp hmem with hm | hm
      · revert hm
        decide
      · rcases List.mem_cons.mp hm with hm2 | hm2
        · cases hm2
        · rcases List.mem_append.mp hm2 with hm3 | hm3
          · exact (contains_false_iff name '\n').mp
              (htok name (List.mem_cons_self name args)).2 hm3
          · rw [hbars] at hm3
            rcases List.mem_flatten.mp hm3 with ⟨l, hl, hml⟩
            rcases List.mem_map.mp hl with ⟨a, ha, hfa⟩
            rw [← hfa] at hml
            rcases List.mem_cons.mp hml with hm4 | hm4
            · cases hm4
            · exact (contains_false_iff a '\n').mp
                (htok a (List.mem_cons_of_mem name ha)).2 hm4
    have hpre : hasPre (kwFunctionCall ++ ' ' :: (name ++ bars)) kwFunctionCall = true :=
      hasPre_append_self kwFunctionCall (' ' :: (name ++ bars))
    have hdrop : List.drop kwFunctionCall.length
        (kwFunctionCall ++ ' ' :: (name ++ bars)) = ' ' :: (name ++ bars) :=
      List.drop_left kwFunctionCall (' ' :: (name ++ bars))
    have htl : trimL (' ' :: (name ++ bars)) = name ++ bars := by
      rw [show (' ' :: (name ++ bars)) = [' '] ++ (name ++ bars) from rfl,
        trimL_ws_append [' '] (name ++ bars) (by decide)]
      apply trimL_no_ws
      intro c hc
      rw [List.head?_append_of_ne_nil name hname_ne] at hc
      exact hhd2 c hc
    have hsplit : splitBar (name ++ bars) = name :: args :=
      splitBar_join args name hnamebar hbarfree
    have hempty : name.isEmpty = false := by
      cases name with
      | nil => exact absurd rfl hname_ne
      | cons d ds => rfl
    simp only [parse, htrim, hnl, Bool.false_eq_true, if_false, hpre, if_true,
      hdrop, htl, hsplit, hempty]
  | finalAnswer v =>
    unfold wfInstruction at hwf
    obtain ⟨htrim, hnl, hdrop, htl⟩ := value_line_facts kwFinalAnswer v
      (by simp [kwFinalAnswer]) (by intro c hc; cases hc; decide) (by decide)
      hwf ws1 ws2 h1 h2
    have hno : hasPre (kwFinalAnswer ++ ' ' :: v) kwFunctionCall = false :=
      faNotFc (' ' :: v)
    have hpre : hasPre (kwFinalAnswer ++ ' ' :: v) kwFinalAnswer = true :=
      hasPre_append_self kwFinalAnswer (' ' :: v)
    simp only [renderInstruction, parse, htrim, hnl, Bool.false_eq_true,
      if_false, hno, hpre, if_true, hdrop, htl]
  | error m =>
    unfold wfInstruction at hwf
    obtain ⟨htrim, hnl, hdrop, htl⟩ := value_line_facts kwError m
      (by simp [kwError]) (by intro c hc; cases hc; decide) (by decide)
      hwf ws1 ws2 h1 h2
    have hno1 : hasPre (kwError ++ ' ' :: m) kwFunctionCall = false :=
      errNotFc (' ' :: m)
    have hno2 : hasPre (kwError ++ ' ' :: m) kwFinalAnswer = false :=
      errNotFa (' ' :: m)
    have hpre : hasPre (kwError ++ ' ' :: m) kwError = true :=
      hasPre_append_self kwError (' ' :: m)
    simp only [renderInstruction, parse, htrim, hnl, Bool.false_eq_true,
      if_false, hno1, hno2, hpre, if_true, hdrop, htl]
  | uncertain m =>
    unfold wfInstruction at hwf
    obtain ⟨htrim, hnl, hdrop, htl⟩ := value_line_facts kwUncertain m
      (by simp [kwUncertain]) (by intro c hc; cases hc; decide) (by decide)
      hwf ws1 ws2 h1 h2
    have hno1 : hasPre (kwUncertain ++ ' ' :: m) kwFunctionCall = false :=
      uncNotFc (' ' :: m)
    have hno2 : hasPre (kwUncertain ++ ' ' :: m) kwFinalAnswer = false :=
      uncNotFa (' ' :: m)
    have hno3 : hasPre (kwUncertain ++ ' ' :: m) kwError = false :=
      uncNotErr (' ' :: m)
    have hpre : hasPre (kwUncertain ++ ' ' :: m) kwUncertain = true :=
      hasPre_append_self kwUncertain (' ' :: m)
    simp only [renderInstruction, parse, htrim, hnl, Bool.false_eq_true,
      if_false, hno1, hno2, hno3, hpre, if_true, hdrop, htl]

/-- Concrete instance of claim C1: the spec example
`FUNCTION_CALL: add|2|3` parses to the matching function call. -/
theorem parse_total_on_grammar_witness :
    parse ([' '] ++ renderInstruction
        (.functionCall ("add".toList) ["2".toList, "3".toList]) ++ []) =
      .ok (.functionCall ("add".toList) ["2".toList, "3".toList]) :=
  parse_total_on_grammar
    (.functionCall ("add".toList) ["2".toList, "3".toList])
    (by decide) [' '] [] (by decide) (by decide)

/-- Starting with `t` is having `t` as an initial segment. -/
theorem hasPre_iff (s t : List Char) : hasPre s t = true ↔ ∃ r, s = t ++ r := by
  induction t generalizing s with
  | nil =>
    constructor
    · intro _
      exact ⟨s, rfl⟩
    · intro _
      cases s <;> rfl
  | cons d ds ih =>
    cases s with
    | nil =>
      constructor
      · intro h
        exact Bool.noConfusion h
      · rintro ⟨r, hr⟩
        exact List.noConfusion hr
    | cons c cs =>
      constructor
      · intro h
        rw [show hasPre (c :: cs) (d :: ds) = (decide (c = d) && hasPre cs ds)
          from rfl, Bool.and_eq_true, decide_eq_true_eq] at h
        obtain ⟨hcd, h2⟩ := h
        obtain ⟨r, hr⟩ := (ih cs).mp h2
        subst hcd
        exact ⟨r, by rw [hr]; rfl⟩
      · rintro ⟨r, hr⟩
        injection hr with hcd hcs
        subst hcd
        rw [show hasPre (c :: cs) (c :: ds) = (decide (c = c) && hasPre cs ds)
          from rfl, Bool.and_eq_true, decide_eq_true_eq]
        exact ⟨rfl, (ih cs).mpr ⟨r, hcs⟩⟩

/-- A bar-split with a nonempty first token comes from a nonempty text not
starting with a bar. -/
theorem splitBar_head (l : List Char) (name : List Char)
    (args : List (List Char)) (h : splitBar l = name :: args)
    (hne : name ≠ []) : l ≠ [] ∧ l.head? ≠ some '|' := by
  cases l with
  | nil =>
    rw [show splitBar [] = [[]] from rfl] at h
    injection h with h1 h2
    exact absurd h1.symm hne
  | cons c cs =>
    refine ⟨by simp, ?_⟩
    by_cases hc : c = '|'
    · subst hc
      rw [splitBar_cons_bar] at h
      injection h with h1 h2
      exact absurd h1.symm hne
    · simp [hc]

/-- A successful parse certifies that the input matches the grammar. -/
theorem parse_ok_matches (raw : List Char) (i : Instruction)
    (h : parse raw = .ok i) : matchesGrammar raw := by
  simp only [parse] at h
  by_cases hnl : (trim raw).contains '\n' = true
  · rw [if_pos hnl] at h
    exact Except.noConfusion h
  · rw [if_neg hnl] at h
    have hnl2 : (trim raw).contains '\n' = false := by
      simpa using hnl
    by_cases hfc : hasPre (trim raw) kwFunctionCall = true
    · rw [if_pos hfc] at h
      split at h
      · exact Except.noConfusion h
      · rename_i name args hsp
        by_cases hemp : name.isEmpty
        · rw [if_pos hemp] at h
          exact Except.noConfusion h
        · obtain ⟨r, hr⟩ := (hasPre_iff _ _).mp hfc
          have hname : name ≠ [] := by
            intro he
            subst he
            exact hemp rfl
          have hdrop : List.drop kwFunctionCall.length (trim raw) = r := by
            rw [hr]
            exact List.drop_left _ _
          rw [hdrop] at hsp
          obtain ⟨hne2, hhd2⟩ := splitBar_head (trimL r) name args hsp hname
          exact ⟨hnl2, Or.inl ⟨r, hr, hne2, hhd2⟩⟩
    · rw [if_neg hfc] at h
      by_cases hfa : hasPre (trim raw) kwFinalAnswer = true
      · exact ⟨hnl2, Or.inr (Or.inl ((hasPre_iff _ _).mp hfa))⟩
      · rw [if_neg hfa] at h
        by_cases her : hasPre (trim raw) kwError = true
        · exact ⟨hnl2, Or.inr (Or.inr (Or.inl ((hasPre_iff _ _).mp her)))⟩
        · rw [if_neg her] at h
          by_cases hun : hasPre (trim raw) kwUncertain = true
          · exact ⟨hnl2, Or.inr (Or.inr (Or.inr ((hasPre_iff _ _).mp hun)))⟩
          · rw [if_neg hun] at h
            exact Except.noConfusion h

/-- Every parse failure carries exactly the offending raw text. -/
theorem parse_error_value (raw : List Char) (e : MalformedResponseError)
    (h : parse raw = .error e) : e = ⟨raw⟩ := by
  simp only [parse] at h
  by_cases h1 : (trim raw).contains '\n' = true
  · rw [if_pos h1] at h
    injection h with h2
    exact h2.symm
  · rw [if_neg h1] at h
    by_cases h2 : hasPre (trim raw) kwFunctionCall = true
    · rw [if_pos h2] at h
      split at h
      · injection h with h3
        exact h3.symm
      · rename_i name args hsp
        by_cases h3 : name.isEmpty
        · rw [if_pos h3] at h
          injection h with h4
          exact h4.symm
        · rw [if_neg h3] at h
          exact Except.noConfusion h
    · rw [if_neg h2] at h
      by_cases h4 : hasPre (trim raw) kwFinalAnswer = true
      · rw [if_pos h4] at h
        exact Except.noConfusion h
      · rw [if_neg h4] at h
        by_cases h5 : hasPre (trim raw) kwError = true
        · rw [if_pos h5] at h
          exact Except.noConfusion h
        · rw [if_neg h5] at h
          by_cases h6 : hasPre (trim raw) kwUncertain = true
          · rw [if_pos h6] at h
            exact Except.noConfusion h
          · rw [if_neg h6] at h
            injection h with h7
            exact h7.symm

/-- Claim C2: any text that does not match one of the four grammar forms is
rejected by `parse` with a `MalformedResponseError` carrying that text; the
parser is total and can produce no other kind of failure. -/
theorem parse_rejects_nongrammar (raw : List Char)
    (h : ¬ matchesGrammar raw) : parse raw = .error ⟨raw⟩ := by
  cases hp : parse raw with
  | ok i => exact absurd (parse_ok_matches raw i hp) h
  | error e => rw [parse_error_value raw e hp]

/-- Concrete instances of claim C2: the empty string, an unknown keyword, a
missing colon, and a two-line text are all rejected with a malformed-response
failure. -/
theorem parse_rejects_nongrammar_witness :
    parse [] = .error ⟨[]⟩ ∧
    parse ("hello world".toList) = .error ⟨"hello world".toList⟩ ∧
    parse ("FINAL_ANSWER 42".toList) = .error ⟨"FINAL_ANSWER 42".toList⟩ ∧
    parse ("ERROR: a\nERROR: b".toList) =
      .error ⟨"ERROR: a\nERROR: b".toList⟩ := by
  refine ⟨?_, ?_, ?_, ?_⟩
  · apply parse_rejects_nongrammar
    rintro ⟨-, hcase⟩
    have htr : trim ([] : List Char) = [] := rfl
    rcases hcase with ⟨r, hr, -, -⟩ | ⟨r, hr⟩ | ⟨r, hr⟩ | ⟨r, hr⟩ <;>
      rw [htr] at hr <;>
      simp [kwFunctionCall, kwFinalAnswer, kwError, kwUncertain] at hr
  · apply parse_rejects_nongrammar
    rintro ⟨-, hcase⟩
    have htr : trim ("hello world".toList) = "hello world".toList := by decide
    rcases hcase with ⟨r, hr, -, -⟩ | ⟨r, hr⟩ | ⟨r, hr⟩ | ⟨r, hr⟩ <;>
      rw [htr] at hr <;>
      simp [kwFunctionCall, kwFinalAnswer, kwError, kwUncertain] at hr
  · apply parse_rejects_nongrammar
    rintro ⟨-, hcase⟩
    have htr : trim ("FINAL_ANSWER 42".toList) = "FINAL_ANSWER 42".toList := by
      decide
    rcases hcase with ⟨r, hr, -, -⟩ | ⟨r, hr⟩ | ⟨r, hr⟩ | ⟨r, hr⟩ <;>
      rw [htr] at hr <;>
      simp [kwFunctionCall, kwFinalAnswer, kwError, kwUncertain] at hr
  · apply parse_rejects_nongrammar
    rintro ⟨h1, -⟩
    revert h1
    decide

/-- Unfolding the run when one pass terminates. -/
theorem runFrom_done (cfg : RunConfig) (model : Nat → List Char)
    (servers : List Server) (invoke : Invoke) (s : RunState)
    (t : Terminal) (s1 : RunState)
    (h : stepOnce cfg model servers invoke s = .done t s1) :
    runFrom cfg model servers invoke s = (t, s1) := by
  unfold runFrom
  split
  · rename_i t2 s2 heq
    rw [h] at heq
    injection heq with e1 e2
    rw [e1, e2]
  · rename_i s2 heq
    rw [h] at heq
    exact StepResult.noConfusion heq

/-- Unfolding the run when one pass continues. -/
theorem runFrom_next (cfg : RunConfig) (model : Nat → List Char)
    (servers : List Server) (invoke : Invoke) (s : RunState) (s1 : RunState)
    (h : stepOnce cfg model servers invoke s = .next s1) :
    runFrom cfg model servers invoke s = runFrom cfg model servers invoke s1 := by
  conv_lhs => unfold runFrom
  split
  · rename_i t2 s2 heq
    rw [h] at heq
    exact StepResult.noConfusion heq
  · rename_i s2 heq
    rw [h] at heq
    injection heq with e1
    rw [e1]

/-- History evolution in one controller pass: a continuing pass either leaves
the history unchanged (a retried malformed response) or appends exactly one
record carrying the next index; a terminating pass never touches it. -/
theorem stepOnce_history (cfg : RunConfig) (model : Nat → List Char)
    (servers : List Server) (invoke : Invoke) (s : RunState) :
    (∀ s1, stepOnce cfg model servers invoke s = .next s1 →
      s1.history = s.history ∨
      ∃ rec : IterationRecord, rec.index = s.history.length ∧
        s1.history = s.history ++ [rec]) ∧
    (∀ t s1, stepOnce cfg model servers invoke s = .done t s1 →
      s1.history = s.history) := by
  refine ⟨?_, ?_⟩
  · intro s1 h
    unfold stepOnce at h
    split at h
    · exact StepResult.noConfusion h
    · split at h
      · split at h
        · exact StepResult.noConfusion h
        · cases h
          exact Or.inl rfl
      · rename_i inst hinst
        cases inst with
        | finalAnswer v => exact StepResult.noConfusion h
        | error m => exact StepResult.noConfusion h
        | uncertain m =>
          cases h
          exact Or.inr ⟨_, rfl, rfl⟩
        | functionCall fn args =>
          simp only [dispatch] at h
          cases hfind : find_tool_server servers fn <;> rw [hfind] at h <;> cases h
          · exact Or.inr ⟨_, rfl, rfl⟩
          · exact Or.inr ⟨_, rfl, rfl⟩
  · intro t s1 h
    unfold stepOnce at h
    split at h
    · cases h
      rfl
    · split at h
      · split at h
        · cases h
          rfl
        · exact StepResult.noConfusion h
      · rename_i inst hinst
        cases inst with
        | finalAnswer v =>
          cases h
          rfl
        | error m =>
          cases h
          rfl
        | uncertain m => exact StepResult.noConfusion h
        | functionCall fn args =>
          simp only [dispatch] at h
          cases hfind : find_tool_server servers fn <;> rw [hfind] at h <;>
            exact StepResult.noConfusion h

/-- Claim C7: along every run the history is append-only (each pass extends
it, never rewrites it) and its indices are exactly `0 .. length - 1` in
order, regardless of how the dispatched cycles fared. -/
theorem history_append_only_gapless (cfg : RunConfig)
    (model : Nat → List Char) (servers : List Server) (invoke : Invoke) :
    (∀ s, Reachable cfg model servers invoke s →
      s.history.map (fun rec => rec.index) = List.range s.history.length) ∧
    (∀ s s1, stepOnce cfg model servers invoke s = .next s1 →
      ∃ tail, s1.history = s.history ++ tail) ∧
    (∀ s t s1, stepOnce cfg model servers invoke s = .done t s1 →
      s1.history = s.history) := by
  refine ⟨?_, ?_, ?_⟩
  · intro s hreach
    induction hreach with
    | init => rfl
    | step hr hstep ih =>
      rename_i s0 s1
      rcases (stepOnce_history cfg model servers invoke s0).1 s1 hstep with
        heq | ⟨rec, hidx, happ⟩
      · rw [heq]
        exact ih
      · rw [happ]
        simp only [List.map_append, List.map_cons, List.map_nil,
          List.length_append, List.length_cons, List.length_nil]
        rw [ih, hidx]
        rw [show s0.history.length + (0 + 1) = s0.history.length + 1 by omega]
        rw [List.range_succ]
  · intro s s1 hstep
    rcases (stepOnce_history cfg model servers invoke s).1 s1 hstep with
      heq | ⟨rec, _, happ⟩
    · exact ⟨[], by simp [heq]⟩
    · exact ⟨[rec], happ⟩
  · intro s t s1 hstep
    exact (stepOnce_history cfg model servers invoke s).2 t s1 hstep

/-- Concrete instance of claim C7: the initial history is gapless, and a
dispatched uncertain instruction extends the history instead of rewriting
it. -/
theorem history_append_only_gapless_witness :
    (initState.history.map (fun rec => rec.index) =
      List.range initState.history.length) ∧
    ∃ tail, (⟨[⟨0, .uncertain ("hmm".toList), none, none⟩], [], 1, 0, 1, 0⟩ :
        RunState).history = initState.history ++ tail := by
  constructor
  · exact (history_append_only_gapless ⟨1, 3⟩
      (fun _ => "UNCERTAIN: hmm".toList) demoServers
      (fun _ _ _ => .ok [])).1 initState .init
  · exact (history_append_only_gapless ⟨1, 3⟩
      (fun _ => "UNCERTAIN: hmm".toList) demoServers
      (fun _ _ _ => .ok [])).2.1 initState
      ⟨[⟨0, .uncertain ("hmm".toList), none, none⟩], [], 1, 0, 1, 0⟩
      (by rfl)

/-- Claim C6: a model answer parsing to a final-answer instruction ends the
run immediately in success with the value verbatim, after exactly one
iteration, one model call and no tool call. -/
theorem final_answer_terminates (cfg : RunConfig) (model : Nat → List Char)
    (servers : List Server) (invoke : Invoke) (v : List Char)
    (hM : 0 < cfg.maxIterations)
    (hm : parse (model 0) = .ok (.finalAnswer v)) :
    runFrom cfg model servers invoke initState =
      (.success v, ⟨[], [], 1, 0, 1, 0⟩) := by
  have hstep : stepOnce cfg model servers invoke initState =
      .done (.success v) ⟨[], [], 1, 0, 1, 0⟩ := by
    unfold stepOnce
    rw [if_neg (by rw [show initState.iterationCount = 0 from rfl]; omega)]
    rw [show initState.modelCalls = 0 from rfl, hm]
    rfl
  exact runFrom_done cfg model servers invoke initState _ _ hstep

/-- Concrete instance of claim C6: the scripted answer `FINAL_ANSWER: 42`
succeeds immediately with value `42`. -/
theorem final_answer_terminates_witness :
    runFrom ⟨3, 5⟩ (fun _ => "FINAL_ANSWER: 42".toList) demoServers
      (fun _ _ _ => .ok []) initState =
      (.success ("42".toList), ⟨[], [], 1, 0, 1, 0⟩) := by
  apply final_answer_terminates ⟨3, 5⟩ (fun _ => "FINAL_ANSWER: 42".toList)
    demoServers (fun _ _ _ => .ok []) ("42".toList)
  · decide
  · rfl

/-- Retry bookkeeping of an always-malformed model: from a state with no
dispatched iterations and `k` retries left, the run fails with the
malformed-response cause carrying the full retry limit, after `k + 1`
further model calls. -/
theorem retry_loop (cfg : RunConfig) (model : Nat → List Char)
    (servers : List Server) (invoke : Invoke)
    (hM : 0 < cfg.maxIterations)
    (hmal : ∀ n i, parse (model n) ≠ .ok i) :
    ∀ (k : Nat) (s : RunState), s.iterationCount = 0 →
      s.retryCount = cfg.retryLimit - k → k ≤ cfg.retryLimit →
      (runFrom cfg model servers invoke s).1 =
        .failure .malformedResponse cfg.retryLimit ∧
      (runFrom cfg model servers invoke s).2.modelCalls =
        s.modelCalls + k + 1 := by
  intro k
  induction k with
  | zero =>
    intro s hi hr hk
    have hr0 : s.retryCount = cfg.retryLimit := by omega
    cases hp : parse (model s.modelCalls) with
    | ok i => exact absurd hp (hmal s.modelCalls i)
    | error e =>
      have hstep : stepOnce cfg model servers invoke s =
          .done (.failure .malformedResponse s.retryCount)
            { s with modelCalls := s.modelCalls + 1 } := by
        unfold stepOnce
        rw [if_neg (by omega), hp, if_pos (by omega)]
      rw [runFrom_done cfg model servers invoke s _ _ hstep]
      exact ⟨by rw [hr0], rfl⟩
  | succ k ih =>
    intro s hi hr hk
    have hlt : s.retryCount < cfg.retryLimit := by omega
    cases hp : parse (model s.modelCalls) with
    | ok i => exact absurd hp (hmal s.modelCalls i)
    | error e =>
      have hstep : stepOnce cfg model servers invoke s =
          .next { s with
            modelCalls := s.modelCalls + 1,
            retryCount := s.retryCount + 1,
            malformedContext := s.malformedContext ++ [model s.modelCalls] } := by
        unfold stepOnce
        rw [if_neg (by omega), hp, if_neg (by omega)]
      rw [runFrom_next cfg model servers invoke s _ hstep]
      have := ih { s with
          modelCalls := s.modelCalls + 1,
          retryCount := s.retryCount + 1,
          malformedContext := s.malformedContext ++ [model s.modelCalls] }
        (by simpa using hi) (by simp; omega) (by omega)
      refine ⟨this.1, ?_⟩
      rw [this.2]
      simp
      omega

/-- Claim C5: a run whose scripted model never produces a parsable line
terminates in a malformed-response failure whose retry counter is exactly
the configured retry limit, after exactly `retryLimit + 1` model calls. -/
theorem retry_exhaustion (cfg : RunConfig) (model : Nat → List Char)
    (servers : List Server) (invoke : Invoke)
    (hM : 0 < cfg.maxIterations)
    (hmal : ∀ n i, parse (model n) ≠ .ok i) :
    (runFrom cfg model servers invoke initState).1 =
      .failure .malformedResponse cfg.retryLimit ∧
    (runFrom cfg model servers invoke initState).2.modelCalls =
      cfg.retryLimit + 1 := by
  have h := retry_loop cfg model servers invoke hM hmal cfg.retryLimit
    initState rfl (by simp [initState]) (le_refl _)
  exact ⟨h.1, by simpa [initState] using h.2⟩

/-- Concrete instance of claim C5: retry limit 2, constant garbage output,
failure after exactly 3 model calls. -/
theorem retry_exhaustion_witness :
    (runFrom ⟨2, 7⟩ (fun _ => "garbage".toList) demoServers
      (fun _ _ _ => .ok []) initState).1 =
      .failure .malformedResponse 2 ∧
    (runFrom ⟨2, 7⟩ (fun _ => "garbage".toList) demoServers
      (fun _ _ _ => .ok []) initState).2.modelCalls = 3 := by
  have hp : parse ("garbage".toList) = .error ⟨"garbage".toList⟩ := rfl
  exact retry_exhaustion ⟨2, 7⟩ (fun _ => "garbage".toList) demoServers
    (fun _ _ _ => .ok []) (by decide)
    (fun n i hcon => by rw [hp] at hcon; exact Except.noConfusion hcon)

end EAG
